import Mathlib

/-!
Verification of the AmazonML2023 training scripts (`end_to_end.py` and
`train.py`), a shallow embedding of their data handling, metric computation,
checkpoint rotation and training-loop control flow.

Embedding conventions:
* Real-valued quantities (losses, metrics, labels) are rationals; the Python
  float constant `1e-8` is embedded as the rational `1 / 100000000`.
* File names are lists of characters; a file system (one checkpoint
  directory) is a list of file names.  `torch.save` inserts a name (keeping a
  single copy on overwrite), `os.remove` erases it, and
  `glob.glob(save_dir + "/model_best_*.pth.tar")` filters by a prefix and a
  suffix match.
* The numeric outcome of the network and optimizer at each epoch (training
  loss, validation MAPE / MSE) is an oracle function given as input: the
  control logic under verification never depends on how those numbers arise,
  only on their comparisons.
-/

namespace AmazonML

/-- ASCII character of a decimal digit `d < 10`. -/
def digitChar (d : ℕ) : Char := Char.ofNat (48 + d)

/-- Numeric value of an ASCII digit character. -/
def digitVal (c : Char) : ℕ := c.toNat - 48

/-- Decimal digits with explicit fuel (structural recursion, so that concrete
file names evaluate inside the kernel). -/
def natDigitsAux : ℕ → ℕ → List Char
  | 0, _ => []
  | fuel + 1, n =>
    if n < 10 then [digitChar n]
    else natDigitsAux fuel (n / 10) ++ [digitChar (n % 10)]

/-- Decimal digit characters of a natural number, most significant first:
the characters Python interpolates for `f"{n}"` when `n ≥ 0`. -/
def natDigits (n : ℕ) : List Char := natDigitsAux (n + 1) n

theorem natDigitsAux_congr : ∀ (f1 f2 n : ℕ), n < f1 → n < f2 →
    natDigitsAux f1 n = natDigitsAux f2 n := by
  intro f1
  induction f1 with
  | zero => intro f2 n h1 _; omega
  | succ f ih =>
    intro f2 n h1 h2
    cases f2 with
    | zero => omega
    | succ g =>
      show natDigitsAux (f + 1) n = natDigitsAux (g + 1) n
      unfold natDigitsAux
      split
      · rfl
      · next hn =>
        rw [ih g (n / 10) (by omega) (by omega)]

/-- The recurrence the Python decimal expansion satisfies. -/
theorem natDigits_eq (n : ℕ) : natDigits n =
    if n < 10 then [digitChar n]
    else natDigits (n / 10) ++ [digitChar (n % 10)] := by
  unfold natDigits
  show natDigitsAux (n + 1) n = _
  conv_lhs => rw [natDigitsAux]
  split
  · rfl
  · next hn =>
    rw [natDigitsAux_congr n (n / 10 + 1) (n / 10) (by omega) (by omega)]

/-- Characters Python interpolates for `f"{i}"`, any integer. -/
def intDigits (i : ℤ) : List Char :=
  if i < 0 then '-' :: natDigits i.natAbs else natDigits i.natAbs

/-- Digit-string parsing with an accumulator (`int` on a digit string). -/
def parseAcc (a : ℕ) (l : List Char) : ℕ :=
  l.foldl (fun x c => 10 * x + digitVal c) a

/-- The sort key used by the best-checkpoint rotation in `end_to_end.py`:
`int("".join(filter(str.isdigit, path)))`. -/
def parseKey (f : List Char) : ℕ := parseAcc 0 (f.filter Char.isDigit)

theorem digitVal_digitChar {d : ℕ} (h : d < 10) : digitVal (digitChar d) = d := by
  interval_cases d <;> decide

theorem digitChar_isDigit {d : ℕ} (h : d < 10) : (digitChar d).isDigit = true := by
  interval_cases d <;> decide

theorem natDigits_isDigit (n : ℕ) : ∀ c ∈ natDigits n, c.isDigit = true := by
  induction n using Nat.strong_induction_on with
  | _ n ih =>
    rw [natDigits_eq]
    split
    · intro c hc
      simp only [List.mem_singleton] at hc
      subst hc
      exact digitChar_isDigit (by omega)
    · intro c hc
      rcases List.mem_append.mp hc with h1 | h1
      · exact ih (n / 10) (Nat.div_lt_self (by omega) (by omega)) c h1
      · simp only [List.mem_singleton] at h1
        subst h1
        exact digitChar_isDigit (Nat.mod_lt _ (by omega))

theorem natDigits_ne_nil (n : ℕ) : natDigits n ≠ [] := by
  rw [natDigits_eq]
  split
  · simp
  · simp

theorem parseAcc_append (a : ℕ) (l₁ l₂ : List Char) :
    parseAcc a (l₁ ++ l₂) = parseAcc (parseAcc a l₁) l₂ := by
  simp [parseAcc, List.foldl_append]

theorem parseAcc_natDigits (n : ℕ) : ∀ a : ℕ,
    parseAcc a (natDigits n) = a * 10 ^ (natDigits n).length + n := by
  induction n using Nat.strong_induction_on with
  | _ n ih =>
    intro a
    rw [natDigits_eq]
    split
    · next h =>
      simp [parseAcc, digitVal_digitChar h]
      ring
    · next h =>
      rw [parseAcc_append, ih (n / 10) (Nat.div_lt_self (by omega) (by omega))]
      simp only [parseAcc, List.foldl_cons, List.foldl_nil, List.length_append,
        List.length_singleton]
      rw [digitVal_digitChar (Nat.mod_lt _ (by omega))]
      rw [pow_succ]
      have : 10 * (n / 10) + n % 10 = n := Nat.div_add_mod n 10
      ring_nf
      omega

theorem parseAcc_natDigits_zero (n : ℕ) : parseAcc 0 (natDigits n) = n := by
  simpa using parseAcc_natDigits n 0

theorem natDigits_length_mono : ∀ {m n : ℕ}, m ≤ n →
    (natDigits m).length ≤ (natDigits n).length := by
  intro m n
  induction n using Nat.strong_induction_on generalizing m with
  | _ n ih =>
    intro h
    conv_rhs => rw [natDigits_eq]
    split
    · next hn =>
      rw [natDigits_eq]
      rw [if_pos (show m < 10 by omega)]
      simp
    · next hn =>
      conv_lhs => rw [natDigits_eq]
      split
      · next hm =>
        simp only [List.length_singleton, List.length_append]
        have := List.length_pos.mpr (natDigits_ne_nil (n / 10))
        omega
      · next hm =>
        simp only [List.length_append, List.length_singleton]
        have hd : m / 10 ≤ n / 10 := Nat.div_le_div_right h
        have := ih (n / 10) (Nat.div_lt_self (by omega) (by omega)) hd
        omega

/-- Injectivity of the decimal representation. -/
theorem natDigits_injective {m n : ℕ} (h : natDigits m = natDigits n) : m = n := by
  have := parseAcc_natDigits_zero m
  rw [h, parseAcc_natDigits_zero] at this
  omega

theorem intDigits_nonneg {i : ℤ} (h : 0 ≤ i) : intDigits i = natDigits i.natAbs := by
  simp [intDigits, not_lt.mpr h]

theorem intDigits_injective {i j : ℤ} (h : intDigits i = intDigits j) : i = j := by
  unfold intDigits at h
  split at h <;> split at h
  · next hi hj =>
    simp only [List.cons.injEq, true_and] at h
    have := natDigits_injective h
    omega
  · next hi hj =>
    exfalso
    have h0 : ('-' : Char) ∈ natDigits j.natAbs := by
      rw [← h]; exact List.mem_cons_self _ _
    have := natDigits_isDigit j.natAbs _ h0
    simp at this
  · next hi hj =>
    exfalso
    have h0 : ('-' : Char) ∈ natDigits i.natAbs := by
      rw [h]; exact List.mem_cons_self _ _
    have := natDigits_isDigit i.natAbs _ h0
    simp at this
  · next hi hj =>
    have := natDigits_injective h
    omega

/-- A file name, as the list of its characters. -/
abbrev FName := List Char

/-- Characters of `"/epoch_"` (`os.path.join` inserts the slash). -/
def slashEpoch : FName := ['/', 'e', 'p', 'o', 'c', 'h', '_']

/-- Characters of `".pth.tar"`. -/
def pthTar : FName := ['.', 'p', 't', 'h', '.', 't', 'a', 'r']

/-- Characters of `"/model_best_"`, the fixed part of the glob pattern. -/
def slashModelBest : FName := ['/', 'm', 'o', 'd', 'e', 'l', '_', 'b', 'e', 's', 't', '_']

/-- Characters of `"epoch_"`, the rest of the best-file stem. -/
def epochUnderscore : FName := ['e', 'p', 'o', 'c', 'h', '_']

/-- The path `os.path.join(args.save_dir, f"epoch_{i}.pth.tar")` from `end_to_end.py`
(the integer may be negative: `epoch - save_every` on the first epochs). -/
def periodicName (dir : FName) (i : ℤ) : FName :=
  dir ++ (slashEpoch ++ (intDigits i ++ pthTar))

/-- The path `os.path.join(args.save_dir, f"model_best_epoch_{e}.pth.tar")`. -/
def bestName (dir : FName) (e : ℕ) : FName :=
  dir ++ (slashModelBest ++ (epochUnderscore ++ (natDigits e ++ pthTar)))

/-- Whether a path matches `glob.glob(save_dir + "/model_best_*.pth.tar")`. -/
def matchesBestGlob (dir : FName) (f : FName) : Bool :=
  List.isPrefixOf (dir ++ slashModelBest) f && List.isSuffixOf pthTar f

/-- Python's `sorted(paths, key=lambda x: int("".join(filter(str.isdigit, x))))` sorts
ascending by this relation on the parsed digit keys. -/
def keyLe (a b : FName) : Prop := parseKey a ≤ parseKey b

instance : DecidableRel keyLe := fun a b =>
  inferInstanceAs (Decidable (parseKey a ≤ parseKey b))

instance : IsTotal FName keyLe := ⟨fun a b => Nat.le_total (parseKey a) (parseKey b)⟩

instance : IsTrans FName keyLe := ⟨fun _ _ _ => Nat.le_trans⟩

/-- Python exception classes as relevant here: `OSError` versus all others. -/
inductive PyExc
  | osError
  | otherErr
deriving DecidableEq

/-- Model of `os.remove f`: the oracle `err` may inject an I/O failure; absent that,
removing a missing file raises `OSError` and removing a present file erases
its (single) directory entry. -/
def osRemove (err : FName → Option PyExc) (fs : List FName) (f : FName) :
    Except PyExc (List FName) :=
  match err f with
  | some e => .error e
  | none => if f ∈ fs then .ok (fs.erase f) else .error .osError

/-- Model of `torch.save(state, f)`: writes file `f` (an overwrite keeps one entry). -/
def addFile (fs : List FName) (f : FName) : List FName :=
  if f ∈ fs then fs else fs ++ [f]

/-- Model of `try: os.remove(f)` / `except OSError: pass` — an `OSError` is swallowed
(leaving the file system as it was), any other exception propagates. -/
def removeCatchOS (err : FName → Option PyExc) (fs : List FName) (f : FName) :
    Except PyExc (List FName) :=
  match osRemove err fs f with
  | .ok l => .ok l
  | .error .osError => .ok fs
  | .error e => .error e

/-- Model of `try: os.remove(f)` / bare `except: pass` — every exception swallowed. -/
def removeCatchAll (err : FName → Option PyExc) (fs : List FName) (f : FName) :
    List FName :=
  match osRemove err fs f with
  | .ok l => l
  | .error _ => fs

/-- The function `save_checkpoint(state, is_best, args)` from `end_to_end.py`: periodic
save, rotation of the periodic file one save-interval back inside
`try/except OSError: pass`, and — when `is_best` — the best-file rotation
(glob, sort by the digit key, delete the first entry once five or more best
files exist, inside a bare `try/except: pass`) followed by the best save. -/
def save_checkpoint (err : FName → Option PyExc) (dir : FName) (save_every : ℕ)
    (epoch : ℕ) (is_best : Bool) (fs : List FName) : Except PyExc (List FName) :=
  let fs1 := addFile fs (periodicName dir (epoch : ℤ))
  (removeCatchOS err fs1 (periodicName dir ((epoch : ℤ) - save_every))).bind
    fun fs2 =>
      if is_best then
        let sorted_best := (fs2.filter (matchesBestGlob dir)).insertionSort keyLe
        let fs3 :=
          if 5 ≤ sorted_best.length then
            match sorted_best.head? with
            | some f => removeCatchAll err fs2 f
            | none => fs2
          else fs2
        .ok (addFile fs3 (bestName dir epoch))
      else .ok fs2

/-- Model of `os.remove` under fault-free I/O inside either `try/except` form:
removes the file when present, does nothing when missing. -/
def tryRemove (fs : List FName) (f : FName) : List FName :=
  if f ∈ fs then fs.erase f else fs

/-- The function `save_checkpoint` under fault-free I/O (shown below to agree with the
`Except`-level function run with the trivial oracle). -/
def save_ckpt (dir : FName) (save_every : ℕ) (epoch : ℕ) (is_best : Bool)
    (fs : List FName) : List FName :=
  let fs1 := addFile fs (periodicName dir (epoch : ℤ))
  let fs2 := tryRemove fs1 (periodicName dir ((epoch : ℤ) - save_every))
  if is_best then
    let sorted_best := (fs2.filter (matchesBestGlob dir)).insertionSort keyLe
    let fs3 :=
      if 5 ≤ sorted_best.length then
        match sorted_best.head? with
        | some f => tryRemove fs2 f
        | none => fs2
      else fs2
    addFile fs3 (bestName dir epoch)
  else fs2

theorem removeCatchOS_trivial (fs : List FName) (f : FName) :
    removeCatchOS (fun _ => none) fs f = .ok (tryRemove fs f) := by
  by_cases h : f ∈ fs <;> simp [removeCatchOS, osRemove, tryRemove, h]

theorem removeCatchAll_trivial (fs : List FName) (f : FName) :
    removeCatchAll (fun _ => none) fs f = tryRemove fs f := by
  by_cases h : f ∈ fs <;> simp [removeCatchAll, osRemove, tryRemove, h]

/-- With no injected I/O faults, `save_checkpoint` always succeeds and
computes the fault-free rotation. -/
theorem save_checkpoint_trivial (dir : FName) (s e : ℕ) (ib : Bool)
    (fs : List FName) :
    save_checkpoint (fun _ => none) dir s e ib fs = .ok (save_ckpt dir s e ib fs) := by
  simp only [save_checkpoint, save_ckpt, removeCatchOS_trivial,
    removeCatchAll_trivial, Except.bind]
  cases ib <;> rfl

theorem periodicName_injective {dir : FName} {i j : ℤ}
    (h : periodicName dir i = periodicName dir j) : i = j := by
  unfold periodicName at h
  have h1 := List.append_cancel_left h
  have h2 := List.append_cancel_left h1
  exact intDigits_injective (List.append_cancel_right h2)

theorem bestName_injective {dir : FName} {e1 e2 : ℕ}
    (h : bestName dir e1 = bestName dir e2) : e1 = e2 := by
  unfold bestName at h
  have h1 := List.append_cancel_left h
  have h2 := List.append_cancel_left h1
  have h3 := List.append_cancel_left h2
  exact natDigits_injective (List.append_cancel_right h3)

theorem periodicName_ne_bestName (dir : FName) (i : ℤ) (e : ℕ) :
    periodicName dir i ≠ bestName dir e := by
  intro h
  unfold periodicName bestName at h
  have h1 := List.append_cancel_left h
  rw [slashEpoch, slashModelBest] at h1
  simp only [List.cons_append] at h1
  injection h1 with _ h2
  injection h2 with h3 _
  exact absurd h3 (by decide)

theorem matchesBestGlob_bestName (dir : FName) (e : ℕ) :
    matchesBestGlob dir (bestName dir e) = true := by
  unfold matchesBestGlob bestName
  rw [Bool.and_eq_true]
  constructor
  · rw [ List.isPrefixOf_iff_prefix]
    exact (List.prefix_append_right_inj dir).mpr (List.prefix_append _ _)
  · rw [List.isSuffixOf_iff_suffix]
    exact (((List.suffix_append (natDigits e) pthTar).trans
      (List.suffix_append epochUnderscore _)).trans
      (List.suffix_append slashModelBest _)).trans (List.suffix_append dir _)

theorem matchesBestGlob_periodicName (dir : FName) (i : ℤ) :
    matchesBestGlob dir (periodicName dir i) = false := by
  unfold matchesBestGlob
  have hp : List.isPrefixOf (dir ++ slashModelBest) (periodicName dir i) = false := by
    rw [Bool.eq_false_iff]
    intro hcon
    rw [ List.isPrefixOf_iff_prefix] at hcon
    unfold periodicName at hcon
    have h1 := (List.prefix_append_right_inj dir).mp hcon
    rw [slashModelBest, slashEpoch] at h1
    simp only [List.cons_append] at h1
    rw [List.cons_prefix_cons] at h1
    rw [List.cons_prefix_cons] at h1
    exact absurd h1.2.1 (by decide)
  rw [hp, Bool.false_and]

theorem filter_isDigit_pthTar : pthTar.filter Char.isDigit = [] := by decide

theorem filter_isDigit_slashModelBest :
    slashModelBest.filter Char.isDigit = [] := by decide

theorem filter_isDigit_epochUnderscore :
    epochUnderscore.filter Char.isDigit = [] := by decide

/-- The digit key the rotation sorts by: all digits of the directory prefix,
then the decimal digits of the epoch. -/
theorem parseKey_bestName (dir : FName) (e : ℕ) :
    parseKey (bestName dir e) =
      parseAcc 0 (dir.filter Char.isDigit) * 10 ^ (natDigits e).length + e := by
  unfold parseKey bestName
  rw [List.filter_append, List.filter_append, List.filter_append,
    List.filter_append, filter_isDigit_slashModelBest,
    filter_isDigit_epochUnderscore, filter_isDigit_pthTar,
    List.filter_eq_self.mpr (natDigits_isDigit e)]
  simp only [List.nil_append, List.append_nil]
  rw [parseAcc_append]
  exact parseAcc_natDigits e _

/-- For a common directory, the digit key orders best files by epoch. -/
theorem parseKey_bestName_lt {dir : FName} {e1 e2 : ℕ} (h : e1 < e2) :
    parseKey (bestName dir e1) < parseKey (bestName dir e2) := by
  rw [parseKey_bestName, parseKey_bestName]
  have hlen : (natDigits e1).length ≤ (natDigits e2).length :=
    natDigits_length_mono (le_of_lt h)
  have hpow : (10 : ℕ) ^ (natDigits e1).length ≤ 10 ^ (natDigits e2).length :=
    Nat.pow_le_pow_right (by omega) hlen
  exact add_lt_add_of_le_of_lt
    (Nat.mul_le_mul_left (parseAcc 0 (dir.filter Char.isDigit)) hpow) h

/-- The float constant `1e-8` guarding division by zero targets. -/
def eps : ℚ := 1 / 100000000

/-- One summand of `torch.abs(output - y) / (torch.abs(y) + 1e-8)`. -/
def mapeTerm (p t : ℚ) : ℚ := |p - t| / (|t| + eps)

/-- Model of `torch.sum(torch.abs(output - y) / (torch.abs(y) + 1e-8))` on one batch of
(prediction, target) pairs. -/
def batchMapeSum (b : List (ℚ × ℚ)) : ℚ :=
  (b.map fun pt => mapeTerm pt.1 pt.2).sum

/-- Model of `nn.MSELoss()` on a batch: the mean squared difference. -/
def batchMse (b : List (ℚ × ℚ)) : ℚ :=
  ((b.map fun pt => (pt.1 - pt.2) ^ 2).sum) / (b.length : ℚ)

/-- Sum of the MAPE terms over a flat list of samples. -/
def mapeSumOver (samples : List (ℚ × ℚ)) : ℚ :=
  (samples.map fun pt => mapeTerm pt.1 pt.2).sum

/-- The `val(model, val_loader, args)` loop of `end_to_end.py`: per-batch MSE
losses are collected and reduced with `np.mean`; the per-batch MAPE sums
accumulate and the total is divided by `len(val_loader.dataset)` (`dsLen`).
The network is abstracted away: a batch is the list of (output, target) pairs
the loop body sees. -/
def val (dsLen : ℕ) (batches : List (List (ℚ × ℚ))) : ℚ × ℚ :=
  (((batches.map batchMse).sum) / (batches.length : ℚ),
    (batches.foldl (fun acc b => acc + batchMapeSum b) 0) / (dsLen : ℚ))

/-- Model of `Trainer.val` of `train.py`: accumulates the MAPE sum and the sum of the
per-batch MSE means over the validation loader and returns both undivided. -/
def TrainerVal (batches : List (List (ℚ × ℚ))) : ℚ × ℚ :=
  (batches.foldl (fun acc b => acc + batchMapeSum b) 0,
    batches.foldl (fun acc b => acc + batchMse b) 0)

/-- The MAPE figure `Trainer.val` prints:
`100 * mape / len(self.valloader.dataset)`. -/
def TrainerValPrintedMape (dsLen : ℕ) (batches : List (List (ℚ × ℚ))) : ℚ :=
  100 * (TrainerVal batches).1 / (dsLen : ℚ)

/-- Model of `TDataset` of `train.py`: the saved embedding array (`np.load`) and the
`PRODUCT_LENGTH` column of the companion CSV, loaded into aligned
sequences (the file reads themselves are I/O and enter as the two lists). -/
structure TDataset where
  data : List (List ℚ)
  values : List ℚ

/-- Model of `__len__`: `len(self.data)` — the embedding array alone. -/
def TDataset.len (d : TDataset) : ℕ := d.data.length

/-- Model of `__getitem__`: row `idx` of both sources; `none` models the `IndexError`
Python raises out of range. -/
def TDataset.getItem (d : TDataset) (idx : ℕ) : Option (List ℚ × ℚ) :=
  match d.data[idx]?, d.values[idx]? with
  | some a, some v => some (a, v)
  | _, _ => none

/-- Configuration and numeric oracles for the `end_to_end.py` loop. -/
structure E2ECfg where
  epochs : ℕ
  save_every : ℕ
  dir : FName
  trainSize : ℕ
  valMape : ℕ → ℚ

/-- Mutable loop state of `train(model, optimizer, ...)` in `end_to_end.py`.
`best = none` encodes the fresh sentinel `np.inf` (above every float);
`processed` records the epochs whose full training pass ran. -/
structure E2EState where
  fs : List FName
  best : Option ℚ
  iter : ℕ
  processed : List ℕ

/-- The comparison `val_mape < args.best_val_mape` with `np.inf` as `none`. -/
def bestLt (v : ℚ) (b : Option ℚ) : Bool :=
  match b with
  | none => true
  | some q => decide (v < q)

/-- One iteration of the epoch loop in `train` (`end_to_end.py`): one full
training pass (the step counter grows by one dataset pass), validation,
best-metric update, and a checkpoint when `epoch % save_every == 0`. -/
def trainEpochE2E (cfg : E2ECfg) (st : E2EState) (e : ℕ) : E2EState :=
  let iter1 := st.iter + cfg.trainSize
  let vm := cfg.valMape e
  let is_best := bestLt vm st.best
  let best1 := if is_best then some vm else st.best
  let fs1 := if e % cfg.save_every == 0
             then save_ckpt cfg.dir cfg.save_every e is_best st.fs
             else st.fs
  ⟨fs1, best1, iter1, st.processed ++ [e]⟩

/-- The loop `for epoch in range(args.start_epoch, args.epochs)` in `end_to_end.py`. -/
def train (cfg : E2ECfg) (start_epoch : ℕ) (st : E2EState) : E2EState :=
  (List.range' start_epoch (cfg.epochs - start_epoch)).foldl (trainEpochE2E cfg) st

/-- A checkpoint as `torch.save`d by `end_to_end.py`: epoch and step counters,
model weights, best metric, optimizer state; weights and optimizer state are
opaque payloads of types `M` and `O`. -/
structure Ckpt (M O : Type) where
  epoch : ℕ
  iter : ℕ
  state_dict : M
  best_val_mape : ℚ
  optimizer : O

/-- The state `main` establishes before entering the loop. -/
structure InitState (M O : Type) where
  model : M
  opt : O
  best : Option ℚ
  start_epoch : ℕ
  iter : ℕ

/-- Lines 133–144 of `end_to_end.py`: with `--resume`, restore weights,
optimizer, best metric, `start_epoch = saved epoch + 1` and the step counter
(`torch.load` modelled as handing over the saved record); without it, fresh
state with `best_val_mape = np.inf` (`none`), epoch 0, step counter 0. -/
def resumeInit {M O : Type} (m0 : M) (o0 : O) :
    Option (Ckpt M O) → InitState M O
  | some c => ⟨c.state_dict, c.optimizer, some c.best_val_mape, c.epoch + 1, c.iter⟩
  | none => ⟨m0, o0, none, 0, 0⟩

/-- Model of `main(args)` of `end_to_end.py`, from resume resolution through the
training loop; the run directory starts empty. -/
def mainE2E {M O : Type} (cfg : E2ECfg) (m0 : M) (o0 : O)
    (resume : Option (Ckpt M O)) : E2EState :=
  let i := resumeInit m0 o0 resume
  train cfg i.start_epoch ⟨[], i.best, i.iter, []⟩

/-- The path `"{}/{}.pt".format(args.save, "best")` from `train.py`. -/
def bestPt (dir : FName) : FName := dir ++ ['/', 'b', 'e', 's', 't', '.', 'p', 't']

/-- The path `"{}/{}.pt".format(args.save, "last")` from `train.py`. -/
def lastPt (dir : FName) : FName := dir ++ ['/', 'l', 'a', 's', 't', '.', 'p', 't']

/-- Configuration and numeric oracles for `Trainer.train` (`train.py`). -/
structure TrCfg where
  epochs : ℕ
  val_interval : ℕ
  save : FName
  trainLoss : ℕ → ℚ
  valMape : ℕ → ℚ
  valMse : ℕ → ℚ

/-- Mutable state of `Trainer.train`. -/
structure TrState where
  fs : List FName
  best_mse : ℚ
  loss : List ℚ
  mape : List ℚ
  mse : List ℚ
  processed : List ℕ

/-- State on entry to the loop: `self.best_mse = 100000000` (a finite
sentinel, not `np.inf`), empty history lists. -/
def trInit : TrState := ⟨[], 100000000, [], [], [], []⟩

/-- One epoch of `Trainer.train`: one training pass with its loss recorded,
then — only when `epoch % val_interval == 0` — validation and, on
`mse < best_mse`, the `best.pt` save followed by the best-metric update. -/
def TrainerEpoch (cfg : TrCfg) (st : TrState) (e : ℕ) : TrState :=
  let st1 : TrState := {st with loss := st.loss ++ [cfg.trainLoss e],
                                processed := st.processed ++ [e]}
  if e % cfg.val_interval == 0 then
    let mp := cfg.valMape e
    let ms := cfg.valMse e
    let st2 : TrState := {st1 with mape := st1.mape ++ [mp],
                                   mse := st1.mse ++ [ms]}
    if ms < st2.best_mse then
      {st2 with fs := addFile st2.fs (bestPt cfg.save), best_mse := ms}
    else st2
  else st1

/-- Model of `Trainer.train`: `for epoch in range(1, self.args.epochs + 1)`, then a
final validation and the `last.pt` save. -/
def TrainerTrain (cfg : TrCfg) : TrState :=
  let st := (List.range' 1 cfg.epochs).foldl (TrainerEpoch cfg) trInit
  {st with fs := addFile st.fs (lastPt cfg.save)}

theorem trainEpochE2E_processed (cfg : E2ECfg) (st : E2EState) (e : ℕ) :
    (trainEpochE2E cfg st e).processed = st.processed ++ [e] := rfl

/-- The epoch trace of the `end_to_end.py` loop is exactly
`range(start_epoch, epochs)`, whatever the metrics do. -/
theorem train_processed (cfg : E2ECfg) (start : ℕ) (st : E2EState) :
    (train cfg start st).processed =
      st.processed ++ List.range' start (cfg.epochs - start) := by
  unfold train
  generalize List.range' start (cfg.epochs - start) = es
  induction es generalizing st with
  | nil => simp
  | cons e es ih =>
    rw [List.foldl_cons, ih, trainEpochE2E_processed, List.append_assoc]
    rfl

theorem TrainerEpoch_processed (cfg : TrCfg) (st : TrState) (e : ℕ) :
    (TrainerEpoch cfg st e).processed = st.processed ++ [e] := by
  unfold TrainerEpoch
  split
  · dsimp only
    split <;> rfl
  · rfl

/-- The epoch trace of `Trainer.train` is exactly `range(1, epochs + 1)`,
whatever the metrics do. -/
theorem TrainerTrain_processed (cfg : TrCfg) :
    (TrainerTrain cfg).processed = List.range' 1 cfg.epochs := by
  unfold TrainerTrain
  show ((List.range' 1 cfg.epochs).foldl (TrainerEpoch cfg) trInit).processed =
    List.range' 1 cfg.epochs
  have h : ∀ (es : List ℕ) (st : TrState),
      (es.foldl (TrainerEpoch cfg) st).processed = st.processed ++ es := by
    intro es
    induction es with
    | nil => intro st; simp
    | cons e es ih =>
      intro st
      rw [List.foldl_cons, ih, TrainerEpoch_processed, List.append_assoc]
      rfl
  rw [h]
  rfl

theorem foldl_batchMapeSum (batches : List (List (ℚ × ℚ))) : ∀ a : ℚ,
    batches.foldl (fun acc b => acc + batchMapeSum b) a = a + mapeSumOver batches.flatten := by
  induction batches with
  | nil => intro a; simp [mapeSumOver]
  | cons b bs ih =>
    intro a
    rw [List.foldl_cons, ih]
    simp only [mapeSumOver, batchMapeSum, List.flatten_cons, List.map_append,
      List.sum_append]
    ring

theorem val_mape_eq (dsLen : ℕ) (batches : List (List (ℚ × ℚ))) :
    (val dsLen batches).2 = mapeSumOver batches.flatten / (dsLen : ℚ) := by
  unfold val
  dsimp only
  rw [foldl_batchMapeSum, zero_add]

theorem trainerVal_mape_eq (batches : List (List (ℚ × ℚ))) :
    (TrainerVal batches).1 = mapeSumOver batches.flatten := by
  unfold TrainerVal
  dsimp only
  rw [foldl_batchMapeSum, zero_add]

theorem trainerPrintedMape_eq (dsLen : ℕ) (batches : List (List (ℚ × ℚ))) :
    TrainerValPrintedMape dsLen batches =
      100 * mapeSumOver batches.flatten / (dsLen : ℚ) := by
  unfold TrainerValPrintedMape
  rw [trainerVal_mape_eq]

theorem mapeTerm_nonneg (p t : ℚ) : 0 ≤ mapeTerm p t := by
  unfold mapeTerm
  apply div_nonneg (abs_nonneg _)
  have h1 := abs_nonneg t
  have h2 : (0 : ℚ) < eps := by norm_num [eps]
  linarith

theorem mapeSumOver_nonneg (l : List (ℚ × ℚ)) : 0 ≤ mapeSumOver l := by
  unfold mapeSumOver
  apply List.sum_nonneg
  intro x hx
  obtain ⟨pt, _, rfl⟩ := List.mem_map.mp hx
  exact mapeTerm_nonneg _ _

theorem mapeSumOver_eq_zero {l : List (ℚ × ℚ)} (h : ∀ pt ∈ l, pt.1 = pt.2) :
    mapeSumOver l = 0 := by
  unfold mapeSumOver
  apply List.sum_eq_zero
  intro x hx
  obtain ⟨pt, hpt, rfl⟩ := List.mem_map.mp hx
  rw [h pt hpt]
  simp [mapeTerm]

theorem mem_addFile (fs : List FName) (f : FName) : f ∈ addFile fs f := by
  unfold addFile
  split
  · assumption
  · simp

theorem mem_addFile_iff {fs : List FName} {f g : FName} :
    g ∈ addFile fs f ↔ g ∈ fs ∨ g = f := by
  unfold addFile
  split
  · next h =>
    constructor
    · exact Or.inl
    · rintro (hg | rfl)
      · exact hg
      · exact h
  · simp

/-! ## The claims -/

/-- C1, counterexample: the claim that every validation pass reports
`Σ |pred−target|/(|target|+ε)` divided by the dataset size fails for
`train.py`: on a two-sample pass with predictions 2 against targets 1, the
MAPE `Trainer.val` reports (prints) is 100 times the claimed value. -/
theorem c1_counterexample :
    TrainerValPrintedMape 2 [[((2 : ℚ), (1 : ℚ))], [(2, 1)]] ≠
      mapeSumOver ([[((2 : ℚ), (1 : ℚ))], [(2, 1)]]).flatten / 2 := by
  norm_num [TrainerValPrintedMape, TrainerVal, batchMapeSum, mapeSumOver,
    mapeTerm, eps]

/-- C1, amended: `end_to_end.py` reports the validation MAPE as the sum of
`|pred−target|/(|target|+1e-8)` over all validation samples divided by the
dataset size; `train.py`'s `Trainer.val` instead prints 100 times that
quantity (a percentage) and returns the undivided sum. -/
theorem c1_amended (dsLen : ℕ) (batches : List (List (ℚ × ℚ))) :
    (val dsLen batches).2 = mapeSumOver batches.flatten / (dsLen : ℚ) ∧
    TrainerValPrintedMape dsLen batches =
      100 * mapeSumOver batches.flatten / (dsLen : ℚ) ∧
    (TrainerVal batches).1 = mapeSumOver batches.flatten :=
  ⟨val_mape_eq dsLen batches, trainerPrintedMape_eq dsLen batches,
    trainerVal_mape_eq batches⟩

/-- C4: resuming from a checkpoint saved at epoch `e` restores the model
weights, optimizer state, step counter and best metric from the checkpoint,
and the loop continues from epoch `e + 1` with the recorded best value. -/
theorem c4_resume {M O : Type} (cfg : E2ECfg) (m0 : M) (o0 : O) (c : Ckpt M O) :
    resumeInit m0 o0 (some c) =
      ⟨c.state_dict, c.optimizer, some c.best_val_mape, c.epoch + 1, c.iter⟩ ∧
    mainE2E cfg m0 o0 (some c) =
      train cfg (c.epoch + 1) ⟨[], some c.best_val_mape, c.iter, []⟩ ∧
    (mainE2E cfg m0 o0 (some c)).processed =
      List.range' (c.epoch + 1) (cfg.epochs - (c.epoch + 1)) := by
  refine ⟨rfl, rfl, ?_⟩
  show (train cfg (c.epoch + 1) ⟨[], some c.best_val_mape, c.iter, []⟩).processed = _
  rw [train_processed]
  exact List.nil_append _

/-- C5, counterexample: `train.py` does not start with a best-metric sentinel
of positive infinity: its sentinel is the finite `100000000`, so a first
validation MSE of 150000000 — which any `np.inf` sentinel would beat — is not
an improvement and no `best.pt` checkpoint is ever written. -/
theorem c5_counterexample :
    trInit.best_mse = 100000000 ∧
    ¬ ((150000000 : ℚ) < trInit.best_mse) ∧
    bestPt ['m'] ∉
      (TrainerTrain ⟨1, 1, ['m'], fun _ => 0, fun _ => 0, fun _ => 150000000⟩).fs := by
  refine ⟨rfl, by norm_num [trInit], by decide⟩

/-- C5, amended: without a resume path, `end_to_end.py` starts fresh from
epoch 0 with best metric `np.inf` and step counter 0; `train.py` always
starts fresh, but with epochs numbered from 1, the finite best-MSE sentinel
`100000000`, and no step counter. -/
theorem c5_amended {M O : Type} (m0 : M) (o0 : O) (cfg : TrCfg) :
    resumeInit m0 o0 none = ⟨m0, o0, none, 0, 0⟩ ∧
    trInit.best_mse = 100000000 ∧
    (TrainerTrain cfg).processed = List.range' 1 cfg.epochs :=
  ⟨rfl, rfl, TrainerTrain_processed cfg⟩

/-- C7: the computed mean absolute-percentage error is non-negative, and is
zero whenever every prediction equals its target — for `end_to_end.py`'s
reported per-sample mean and for `train.py`'s accumulated sum and printed
percentage alike. -/
theorem c7_mape_nonneg (dsLen : ℕ) (batches : List (List (ℚ × ℚ))) :
    0 ≤ (val dsLen batches).2 ∧ 0 ≤ (TrainerVal batches).1 ∧
    ((∀ pt ∈ batches.flatten, pt.1 = pt.2) →
      (val dsLen batches).2 = 0 ∧ (TrainerVal batches).1 = 0 ∧
      TrainerValPrintedMape dsLen batches = 0) := by
  refine ⟨?_, ?_, ?_⟩
  · rw [val_mape_eq]
    exact div_nonneg (mapeSumOver_nonneg _) (Nat.cast_nonneg _)
  · rw [trainerVal_mape_eq]
    exact mapeSumOver_nonneg _
  · intro h
    refine ⟨?_, ?_, ?_⟩
    · rw [val_mape_eq, mapeSumOver_eq_zero h, zero_div]
    · rw [trainerVal_mape_eq, mapeSumOver_eq_zero h]
    · rw [trainerPrintedMape_eq, mapeSumOver_eq_zero h]
      simp

/-- C7's zero case exercised at a concrete input where predictions equal
targets exactly. -/
theorem c7_witness :
    (val 2 [[((3 : ℚ), (3 : ℚ))], [(4, 4)]]).2 = 0 ∧
    (TrainerVal [[((3 : ℚ), (3 : ℚ))], [(4, 4)]]).1 = 0 :=
  ⟨((c7_mape_nonneg 2 [[((3 : ℚ), (3 : ℚ))], [(4, 4)]]).2.2 (by decide)).1,
    ((c7_mape_nonneg 2 [[((3 : ℚ), (3 : ℚ))], [(4, 4)]]).2.2 (by decide)).2.1⟩

/-- C8: for a dataset whose two sources are aligned (equal row counts), the
length is the common number of rows, and indexing at `i` returns row `i` of
the embedding array paired with row `i` of the label column. -/
theorem c8_dataset (d : TDataset) (h : d.data.length = d.values.length) :
    d.len = d.data.length ∧ d.len = d.values.length ∧
    ∀ i, i < d.len → ∀ (hd : i < d.data.length) (hv : i < d.values.length),
      d.getItem i = some (d.data.get ⟨i, hd⟩, d.values.get ⟨i, hv⟩) := by
  refine ⟨rfl, h, ?_⟩
  intro i _ hd hv
  unfold TDataset.getItem
  rw [List.getElem?_eq_getElem hd, List.getElem?_eq_getElem hv]
  rfl

/-- C8 exercised at a concrete two-row dataset. -/
theorem c8_witness :
    (TDataset.mk [[1], [2]] [5, 6]).getItem 0 = some ([1], 5) := by
  have h := (c8_dataset (TDataset.mk [[1], [2]] [5, 6]) (by decide)).2.2 0
    (by decide) (by decide) (by decide)
  simpa using h

/-- C10: with positive save/validation intervals (Python's modulo would fault
otherwise), both loops always run exactly the configured number of full
training passes — `epochs − start_epoch` in `end_to_end.py`, `epochs` in
`train.py` — and the epoch trace is a fixed range for every metric oracle:
there is no early-stopping path. -/
theorem c10_termination (cfg : E2ECfg) (start : ℕ) (st : E2EState)
    (tcfg : TrCfg) (_h1 : 0 < cfg.save_every) (_h2 : 0 < tcfg.val_interval) :
    (train cfg start st).processed =
      st.processed ++ List.range' start (cfg.epochs - start) ∧
    (train cfg start st).processed.length =
      st.processed.length + (cfg.epochs - start) ∧
    (TrainerTrain tcfg).processed = List.range' 1 tcfg.epochs ∧
    (TrainerTrain tcfg).processed.length = tcfg.epochs := by
  refine ⟨train_processed cfg start st, ?_, TrainerTrain_processed tcfg, ?_⟩
  · rw [train_processed]
    simp
  · rw [TrainerTrain_processed]
    simp

/-- C10 exercised at a concrete configuration: 3 epochs from epoch 1. -/
theorem c10_witness :
    (train ⟨4, 1, ['c'], 1, fun _ => 0⟩ 1 ⟨[], none, 0, []⟩).processed = [1, 2, 3] ∧
    (TrainerTrain ⟨2, 1, ['m'], fun _ => 0, fun _ => 0, fun _ => 0⟩).processed = [1, 2] := by
  have h := c10_termination ⟨4, 1, ['c'], 1, fun _ => 0⟩ 1 ⟨[], none, 0, []⟩
    ⟨2, 1, ['m'], fun _ => 0, fun _ => 0, fun _ => 0⟩ (by decide) (by decide)
  refine ⟨?_, ?_⟩
  · rw [h.1]
    rfl
  · rw [h.2.2.1]
    rfl

theorem periodicName_eq_iff {dir : FName} {i j : ℤ} :
    periodicName dir i = periodicName dir j ↔ i = j :=
  ⟨periodicName_injective, fun h => h ▸ rfl⟩

theorem bestName_eq_iff {dir : FName} {e1 e2 : ℕ} :
    bestName dir e1 = bestName dir e2 ↔ e1 = e2 :=
  ⟨bestName_injective, fun h => h ▸ rfl⟩

theorem bestName_mem_save_ckpt (dir : FName) (s e : ℕ) (fs : List FName) :
    bestName dir e ∈ save_ckpt dir s e true fs := by
  unfold save_ckpt
  dsimp only
  rw [if_pos rfl]
  exact mem_addFile _ _

/-- C2, counterexample: in `end_to_end.py` with `save_every = 2`, the
validation MAPE improves at epoch 1 (3 beats the best-so-far 5), yet no best
checkpoint is persisted during that epoch: the best save only happens inside
the `epoch % save_every == 0` branch, so the two-epoch run ends with only the
epoch-0 files on disk. -/
theorem c2_counterexample :
    (trainEpochE2E ⟨2, 2, ['c'], 1, fun e => if e = 0 then 5 else 3⟩
      ⟨[], none, 0, []⟩ 0).best = some 5 ∧
    bestLt ((fun e => if e = 0 then (5 : ℚ) else 3) 1) (some 5) = true ∧
    mainE2E ⟨2, 2, ['c'], 1, fun e => if e = 0 then 5 else 3⟩ () () none =
      trainEpochE2E ⟨2, 2, ['c'], 1, fun e => if e = 0 then 5 else 3⟩
        (trainEpochE2E ⟨2, 2, ['c'], 1, fun e => if e = 0 then 5 else 3⟩
          ⟨[], none, 0, []⟩ 0) 1 ∧
    bestName ['c'] 1 ∉
      (mainE2E ⟨2, 2, ['c'], 1, fun e => if e = 0 then 5 else 3⟩ () () none).fs := by
  refine ⟨by decide, by decide, rfl, by decide⟩

/-- C2, amended: a best checkpoint is persisted during an improving epoch
only when that epoch also meets the save schedule: in `end_to_end.py`, when
additionally `epoch % save_every == 0`, the tagged file
`model_best_epoch_{e}.pth.tar` is written during the epoch; in `train.py`,
improvement is only ever observed on validation epochs
(`epoch % val_interval == 0`) and then `best.pt` is written. -/
theorem c2_amended (cfg : E2ECfg) (st : E2EState) (e : ℕ)
    (himp : bestLt (cfg.valMape e) st.best = true)
    (hsch : (e % cfg.save_every == 0) = true)
    (tcfg : TrCfg) (tst : TrState) (te : ℕ)
    (thsch : (te % tcfg.val_interval == 0) = true)
    (thimp : tcfg.valMse te < tst.best_mse) :
    bestName cfg.dir e ∈ (trainEpochE2E cfg st e).fs ∧
    bestPt tcfg.save ∈ (TrainerEpoch tcfg tst te).fs := by
  constructor
  · unfold trainEpochE2E
    dsimp only
    rw [himp, if_pos hsch]
    exact bestName_mem_save_ckpt cfg.dir cfg.save_every e st.fs
  · unfold TrainerEpoch
    dsimp only
    rw [if_pos thsch, if_pos thimp]
    exact mem_addFile _ _

/-- C2's amended statement exercised concretely: an improving epoch that is
on the save schedule does write the tagged best file, in both variants. -/
theorem c2_witness :
    bestName ['c'] 0 ∈
      (trainEpochE2E ⟨1, 1, ['c'], 1, fun _ => 4⟩ ⟨[], none, 0, []⟩ 0).fs ∧
    bestPt ['m'] ∈
      (TrainerEpoch ⟨1, 1, ['m'], fun _ => 0, fun _ => 0, fun _ => 3⟩ trInit 1).fs :=
  c2_amended ⟨1, 1, ['c'], 1, fun _ => 4⟩ ⟨[], none, 0, []⟩ 0 (by decide)
    (by decide) ⟨1, 1, ['m'], fun _ => 0, fun _ => 0, fun _ => 3⟩ trInit 1
    (by decide) (by decide)

/-- C9: file-deletion failures during rotation are silently swallowed and do
not stop the new checkpoint from being written: when the periodic-rotation
`os.remove` fails with an `OSError` and every other removal fails with an
arbitrary exception class, `save_checkpoint` still returns successfully and
the directory is exactly the old contents plus the new periodic file (plus
the new best-tagged file when `is_best`), everything else untouched. -/
theorem c9_swallowed (dir : FName) (s e : ℕ) (ib : Bool) (fs : List FName)
    (err : FName → Option PyExc)
    (hper : err (periodicName dir ((e : ℤ) - s)) = some PyExc.osError)
    (hall : ∀ f, err f ≠ none) :
    save_checkpoint err dir s e ib fs =
      .ok (if ib then
            addFile (addFile fs (periodicName dir (e : ℤ))) (bestName dir e)
          else addFile fs (periodicName dir (e : ℤ))) := by
  have h1 : removeCatchOS err (addFile fs (periodicName dir (e : ℤ)))
      (periodicName dir ((e : ℤ) - s)) =
      .ok (addFile fs (periodicName dir (e : ℤ))) := by
    unfold removeCatchOS osRemove
    rw [hper]
  have h2 : ∀ (l : List FName) (f : FName), removeCatchAll err l f = l := by
    intro l f
    unfold removeCatchAll osRemove
    cases hf : err f with
    | none => exact absurd hf (hall f)
    | some exc => rfl
  unfold save_checkpoint
  dsimp only
  rw [h1]
  simp only [Except.bind]
  cases ib with
  | false => rfl
  | true =>
    rw [if_pos rfl, if_pos rfl]
    congr 1
    congr 1
    split
    · split
      · exact h2 _ _
      · rfl
    · rfl

/-- C9 exercised concretely: with the periodic-rotation target failing as
`OSError` and every other removal raising a distinct exception class, the
best save at epoch 3 still lands and nothing else changes. -/
theorem c9_witness :
    save_checkpoint
      (fun f => if f = periodicName ['c'] 2 then some PyExc.osError
                else some PyExc.otherErr) ['c'] 1 3 true [] =
      .ok (addFile (addFile [] (periodicName ['c'] (3 : ℤ))) (bestName ['c'] 3)) := by
  have h := c9_swallowed ['c'] 1 3 true []
    (fun f => if f = periodicName ['c'] 2 then some PyExc.osError
              else some PyExc.otherErr)
    (by decide)
    (fun f => by
      dsimp only
      split <;> simp)
  simpa using h

theorem addFile_nodup {fs : List FName} (h : fs.Nodup) (f : FName) :
    (addFile fs f).Nodup := by
  unfold addFile
  split
  · exact h
  · next hf =>
    rw [List.nodup_append]
    exact ⟨h, List.nodup_singleton f, List.disjoint_singleton.mpr hf⟩

theorem tryRemove_nodup {fs : List FName} (h : fs.Nodup) (f : FName) :
    (tryRemove fs f).Nodup := by
  unfold tryRemove
  split
  · exact h.erase f
  · exact h

theorem mem_tryRemove_iff {fs : List FName} (hnd : fs.Nodup) (f g : FName) :
    g ∈ tryRemove fs f ↔ g ∈ fs ∧ g ≠ f := by
  unfold tryRemove
  split
  · next hf =>
    rw [hnd.mem_erase_iff]
    tauto
  · next hf =>
    constructor
    · intro h
      exact ⟨h, fun hg => hf (hg ▸ h)⟩
    · tauto

/-- Anything the best-file rotation deletes was returned by the glob. -/
theorem head_sorted_filter_matches {l : List FName} {p : FName → Bool} {f : FName}
    (h : ((l.filter p).insertionSort keyLe).head? = some f) : p f = true := by
  have hf : f ∈ (l.filter p).insertionSort keyLe :=
    List.mem_of_mem_head? (Option.mem_def.mpr h)
  have hmem := (List.perm_insertionSort keyLe (l.filter p)).mem_iff.mp hf
  exact (List.mem_filter.mp hmem).2

theorem save_ckpt_nodup (dir : FName) (s e : ℕ) (ib : Bool) {fs : List FName}
    (h : fs.Nodup) : (save_ckpt dir s e ib fs).Nodup := by
  unfold save_ckpt
  dsimp only
  have h1 := addFile_nodup h (periodicName dir (e : ℤ))
  have h2 := tryRemove_nodup h1 (periodicName dir ((e : ℤ) - s))
  split
  · apply addFile_nodup
    split
    · split
      · exact tryRemove_nodup h2 _
      · exact h2
    · exact h2
  · exact h2

/-- Effect of one `save_checkpoint` on the periodic files present: the file
for `e` is written, the one for `e − save_every` is removed, best-file
traffic never touches a periodic name. -/
theorem save_ckpt_periodic_mem (dir : FName) (s e : ℕ) (ib : Bool)
    {fs : List FName} (hnd : fs.Nodup) (i : ℤ) :
    (periodicName dir i ∈ save_ckpt dir s e ib fs ↔
      (i ≠ (e : ℤ) - s ∧ (i = (e : ℤ) ∨ periodicName dir i ∈ fs))) := by
  have hnd1 := addFile_nodup hnd (periodicName dir (e : ℤ))
  have hm2 : periodicName dir i ∈
      tryRemove (addFile fs (periodicName dir (e : ℤ)))
        (periodicName dir ((e : ℤ) - s)) ↔
      (i ≠ (e : ℤ) - s ∧ (i = (e : ℤ) ∨ periodicName dir i ∈ fs)) := by
    rw [mem_tryRemove_iff hnd1, mem_addFile_iff, ne_eq, periodicName_eq_iff]
    rw [ne_eq, periodicName_eq_iff]
    tauto
  unfold save_ckpt
  dsimp only
  split
  · rw [mem_addFile_iff]
    have hbn : periodicName dir i ≠ bestName dir e := periodicName_ne_bestName dir i e
    have h3 : periodicName dir i ∈
        (if 5 ≤ ((List.filter (matchesBestGlob dir)
            (tryRemove (addFile fs (periodicName dir (e : ℤ)))
              (periodicName dir ((e : ℤ) - s)))).insertionSort keyLe).length then
          match ((List.filter (matchesBestGlob dir)
              (tryRemove (addFile fs (periodicName dir (e : ℤ)))
                (periodicName dir ((e : ℤ) - s)))).insertionSort keyLe).head? with
          | some f => tryRemove (tryRemove (addFile fs (periodicName dir (e : ℤ)))
              (periodicName dir ((e : ℤ) - s))) f
          | none => tryRemove (addFile fs (periodicName dir (e : ℤ)))
              (periodicName dir ((e : ℤ) - s))
        else tryRemove (addFile fs (periodicName dir (e : ℤ)))
          (periodicName dir ((e : ℤ) - s))) ↔
        periodicName dir i ∈
          tryRemove (addFile fs (periodicName dir (e : ℤ)))
            (periodicName dir ((e : ℤ) - s)) := by
      split
      · split
        · next f hf =>
          have hglob := head_sorted_filter_matches hf
          have hne : periodicName dir i ≠ f := by
            intro hcon
            rw [← hcon, matchesBestGlob_periodicName] at hglob
            exact Bool.false_ne_true hglob
          rw [mem_tryRemove_iff (tryRemove_nodup hnd1 _) f]
          constructor
          · exact fun h => h.1
          · exact fun h => ⟨h, hne⟩
        · exact Iff.rfl
      · exact Iff.rfl
    rw [h3, hm2]
    constructor
    · rintro (h | h)
      · exact h
      · exact absurd h hbn
    · exact Or.inl
  · exact hm2

/-- A run of `k` checkpoint saves at consecutive epochs `e0, e0+1, …` with
`save_every = 1` (periodic saves one epoch apart), starting from an empty run
directory; `ibs` tells which epochs were also best. -/
def periodicRun (dir : FName) (e0 k : ℕ) (ibs : ℕ → Bool) : List FName :=
  (List.range' e0 k).foldl (fun fs e => save_ckpt dir 1 e (ibs e) fs) []

theorem periodicRun_succ (dir : FName) (e0 k : ℕ) (ibs : ℕ → Bool) :
    periodicRun dir e0 (k + 1) ibs =
      save_ckpt dir 1 (e0 + k) (ibs (e0 + k)) (periodicRun dir e0 k ibs) := by
  unfold periodicRun
  rw [List.range'_concat, List.foldl_append]
  simp

theorem periodicRun_spec (dir : FName) (e0 : ℕ) (ibs : ℕ → Bool) : ∀ k : ℕ,
    (periodicRun dir e0 k ibs).Nodup ∧
    (∀ i : ℤ, periodicName dir i ∈ periodicRun dir e0 k ibs ↔
      (1 ≤ k ∧ i = (e0 : ℤ) + k - 1)) := by
  intro k
  induction k with
  | zero =>
    refine ⟨List.nodup_nil, ?_⟩
    intro i
    simp [periodicRun]
  | succ k ih =>
    rw [periodicRun_succ]
    refine ⟨save_ckpt_nodup _ _ _ _ ih.1, ?_⟩
    intro i
    rw [save_ckpt_periodic_mem _ _ _ _ ih.1, ih.2 i]
    constructor
    · rintro ⟨hne, hor⟩
      rcases hor with h | ⟨hk, hi⟩
      · refine ⟨by omega, ?_⟩
        push_cast at h ⊢
        omega
      · exfalso
        apply hne
        push_cast at hi ⊢
        omega
    · rintro ⟨hk, hi⟩
      push_cast at hi
      constructor
      · push_cast
        omega
      · left
        push_cast
        omega

theorem mem_map_bestName {dir : FName} {l : List ℕ} {e : ℕ} :
    bestName dir e ∈ l.map (bestName dir) ↔ e ∈ l := by
  constructor
  · intro h
    obtain ⟨x, hx, heq⟩ := List.mem_map.mp h
    rwa [← bestName_injective heq]
  · exact List.mem_map_of_mem _

theorem pn_not_mem_map_bestName (dir : FName) (i : ℤ) (l : List ℕ) :
    periodicName dir i ∉ l.map (bestName dir) := by
  intro h
  obtain ⟨x, _, heq⟩ := List.mem_map.mp h
  exact periodicName_ne_bestName dir i x heq.symm

theorem filter_glob_map_bestName (dir : FName) (l : List ℕ) :
    (l.map (bestName dir)).filter (matchesBestGlob dir) = l.map (bestName dir) :=
  List.filter_eq_self.mpr fun x hx => by
    obtain ⟨e, _, rfl⟩ := List.mem_map.mp hx
    exact matchesBestGlob_bestName dir e

/-- Consecutive best files sort by their digit keys into epoch order. -/
theorem sorted_map_bestName (dir : FName) (a n : ℕ) :
    List.Sorted keyLe ((List.range' a n).map (bestName dir)) := by
  show List.Pairwise keyLe _
  rw [List.pairwise_map]
  exact (List.pairwise_lt_range' a n 1 (by omega)).imp
    (fun h => le_of_lt (parseKey_bestName_lt h))

/-- Directory contents after `j` all-best saves at consecutive epochs
`e0, …, e0+j−1` with `save_every = 1`: the best files of a trailing window of
at most four older epochs, then the latest periodic file, then the latest
best file. -/
def expectedFS (dir : FName) (e0 j : ℕ) : List FName :=
  if j = 0 then []
  else ((List.range' (e0 + (j - 5)) (min (j - 1) 4)).map (bestName dir)) ++
    [periodicName dir ((e0 + j - 1 : ℕ) : ℤ), bestName dir (e0 + j - 1)]

/-- A run of `k` best saves at consecutive epochs with `save_every = 1`, starting from
an empty run directory. -/
def bestRun (dir : FName) (e0 k : ℕ) : List FName :=
  (List.range' e0 k).foldl (fun fs e => save_ckpt dir 1 e true fs) []

theorem save_ckpt_expected_zero (dir : FName) (e0 : ℕ) :
    save_ckpt dir 1 e0 true [] = expectedFS dir e0 1 := by
  unfold save_ckpt
  dsimp only
  rw [if_pos rfl]
  have h1 : addFile [] (periodicName dir (e0 : ℤ)) = [periodicName dir (e0 : ℤ)] := rfl
  rw [h1]
  have h2 : tryRemove [periodicName dir (e0 : ℤ)]
      (periodicName dir ((e0 : ℤ) - ((1 : ℕ) : ℤ))) = [periodicName dir (e0 : ℤ)] := by
    unfold tryRemove
    rw [if_neg]
    intro hmem
    rcases List.mem_singleton.mp hmem with heq
    have := periodicName_injective heq
    omega
  rw [h2]
  have h3 : List.filter (matchesBestGlob dir) [periodicName dir (e0 : ℤ)] = [] := by
    rw [List.filter_cons, if_neg (by rw [matchesBestGlob_periodicName]; exact Bool.false_ne_true),
      List.filter_nil]
  rw [h3]
  rw [if_neg (by simp [List.insertionSort])]
  unfold expectedFS
  rw [if_neg (by omega)]
  have h4 : e0 + 1 - 1 = e0 := by omega
  rw [h4]
  simp [addFile, List.mem_singleton, periodicName_ne_bestName, Ne.symm]

theorem save_ckpt_expected_step (dir : FName) (e0 j : ℕ) (hj : 1 ≤ j) :
    save_ckpt dir 1 (e0 + j) true (expectedFS dir e0 j) =
      expectedFS dir e0 (j + 1) := by
  set w := e0 + (j - 5) with hw
  set m := min (j - 1) 4 with hm
  set x := e0 + j - 1 with hxdef
  set e := e0 + j with hedef
  have hwm : w + m = x := by omega
  have hfs : expectedFS dir e0 j =
      ((List.range' w m).map (bestName dir)) ++
        [periodicName dir (x : ℤ), bestName dir x] := by
    unfold expectedFS
    rw [if_neg (by omega)]
  have hpnA : ∀ i : ℤ, periodicName dir i ∉ (List.range' w m).map (bestName dir) :=
    fun i => pn_not_mem_map_bestName dir i _
  have hpe_ne_px : periodicName dir (e : ℤ) ≠ periodicName dir (x : ℤ) := by
    rw [ne_eq, periodicName_eq_iff]
    omega
  unfold save_ckpt
  dsimp only
  rw [if_pos rfl, hfs]
  have h1 : addFile
      (((List.range' w m).map (bestName dir)) ++
        [periodicName dir (x : ℤ), bestName dir x]) (periodicName dir (e : ℤ)) =
      ((List.range' w m).map (bestName dir)) ++
        [periodicName dir (x : ℤ), bestName dir x, periodicName dir (e : ℤ)] := by
    unfold addFile
    rw [if_neg]
    · rw [List.append_assoc]
      rfl
    · intro hmem
      rcases List.mem_append.mp hmem with h | h
      · exact hpnA _ h
      · rcases List.mem_cons.mp h with h | h
        · exact hpe_ne_px h
        · rcases List.mem_singleton.mp h with h
          exact periodicName_ne_bestName dir (e : ℤ) x h
  rw [h1]
  have hcast : (e : ℤ) - ((1 : ℕ) : ℤ) = (x : ℤ) := by push_cast; omega
  rw [hcast]
  have h2 : tryRemove
      (((List.range' w m).map (bestName dir)) ++
        [periodicName dir (x : ℤ), bestName dir x, periodicName dir (e : ℤ)])
      (periodicName dir (x : ℤ)) =
      ((List.range' w m).map (bestName dir)) ++
        [bestName dir x, periodicName dir (e : ℤ)] := by
    unfold tryRemove
    rw [if_pos]
    · rw [List.erase_append, if_neg (hpnA _)]
      rw [List.erase_cons_head]
    · exact List.mem_append.mpr (Or.inr (List.mem_cons_self _ _))
  rw [h2]
  have hrange : List.range' w (m + 1) = List.range' w m ++ [x] := by
    rw [List.range'_concat]
    simp [hwm]
  have h3 : List.filter (matchesBestGlob dir)
      (((List.range' w m).map (bestName dir)) ++
        [bestName dir x, periodicName dir (e : ℤ)]) =
      (List.range' w (m + 1)).map (bestName dir) := by
    rw [List.filter_append, filter_glob_map_bestName]
    rw [List.filter_cons, if_pos (matchesBestGlob_bestName dir x)]
    rw [List.filter_cons,
      if_neg (by rw [matchesBestGlob_periodicName]; exact Bool.false_ne_true),
      List.filter_nil]
    rw [hrange, List.map_append]
    rfl
  rw [h3]
  rw [(sorted_map_bestName dir w (m + 1)).insertionSort_eq]
  have hlen : ((List.range' w (m + 1)).map (bestName dir)).length = m + 1 := by
    rw [List.length_map, List.length_range']
  rw [hlen]
  by_cases hbig : 5 ≤ m + 1
  · -- five or more best files exist: the key-smallest (epoch w) is deleted
    rw [if_pos hbig]
    have hm4 : m = 4 := by omega
    have hhead : ((List.range' w (m + 1)).map (bestName dir)).head? =
        some (bestName dir w) := by
      rw [List.range'_succ, List.map_cons, List.head?_cons]
    rw [hhead]
    dsimp only
    have hbnwA : bestName dir w ∈ (List.range' w m).map (bestName dir) := by
      rw [mem_map_bestName, List.mem_range']
      exact ⟨0, by omega, by omega⟩
    have h4 : tryRemove
        (((List.range' w m).map (bestName dir)) ++
          [bestName dir x, periodicName dir (e : ℤ)]) (bestName dir w) =
        ((List.range' (w + 1) 3).map (bestName dir)) ++
          [bestName dir x, periodicName dir (e : ℤ)] := by
      unfold tryRemove
      rw [if_pos (List.mem_append.mpr (Or.inl hbnwA))]
      rw [List.erase_append, if_pos hbnwA]
      congr 1
      rw [hm4, show List.range' w 4 = w :: List.range' (w + 1) 3 from List.range'_succ w 3 1]
      rw [List.map_cons, List.erase_cons_head]
    rw [h4]
    have h5 : addFile
        (((List.range' (w + 1) 3).map (bestName dir)) ++
          [bestName dir x, periodicName dir (e : ℤ)]) (bestName dir e) =
        ((List.range' (w + 1) 3).map (bestName dir)) ++
          [bestName dir x, periodicName dir (e : ℤ), bestName dir e] := by
      unfold addFile
      rw [if_neg]
      · rw [List.append_assoc]
        rfl
      · intro hmem
        rcases List.mem_append.mp hmem with h | h
        · rw [mem_map_bestName, List.mem_range'] at h
          omega
        · rcases List.mem_cons.mp h with h | h
          · rw [bestName_eq_iff] at h
            omega
          · rcases List.mem_singleton.mp h with h
            exact periodicName_ne_bestName dir (e : ℤ) e h.symm
    rw [h5]
    unfold expectedFS
    rw [if_neg (by omega)]
    rw [show e0 + (j + 1 - 5) = w + 1 by omega]
    rw [show min (j + 1 - 1) 4 = 4 by omega]
    rw [show e0 + (j + 1) - 1 = e by omega]
    rw [show List.range' (w + 1) 4 = List.range' (w + 1) 3 ++ [x] from by
      rw [List.range'_concat]; congr 1; congr 1; omega]
    rw [List.map_append]
    simp [List.append_assoc]
  · -- fewer than five best files: nothing is deleted
    rw [if_neg hbig]
    have h5 : addFile
        (((List.range' w m).map (bestName dir)) ++
          [bestName dir x, periodicName dir (e : ℤ)]) (bestName dir e) =
        ((List.range' w m).map (bestName dir)) ++
          [bestName dir x, periodicName dir (e : ℤ), bestName dir e] := by
      unfold addFile
      rw [if_neg]
      · rw [List.append_assoc]
        rfl
      · intro hmem
        rcases List.mem_append.mp hmem with h | h
        · rw [mem_map_bestName, List.mem_range'] at h
          omega
        · rcases List.mem_cons.mp h with h | h
          · rw [bestName_eq_iff] at h
            omega
          · rcases List.mem_singleton.mp h with h
            exact periodicName_ne_bestName dir (e : ℤ) e h.symm
    rw [h5]
    unfold expectedFS
    rw [if_neg (by omega)]
    rw [show e0 + (j + 1 - 5) = w by omega]
    rw [show min (j + 1 - 1) 4 = m + 1 by omega]
    rw [show e0 + (j + 1) - 1 = e by omega]
    rw [hrange, List.map_append]
    simp [List.append_assoc]

theorem bestRun_eq_expected (dir : FName) (e0 : ℕ) : ∀ k : ℕ,
    bestRun dir e0 k = expectedFS dir e0 k := by
  intro k
  induction k with
  | zero => rfl
  | succ k ih =>
    have hstep : bestRun dir e0 (k + 1) =
        save_ckpt dir 1 (e0 + k) true (bestRun dir e0 k) := by
      unfold bestRun
      rw [List.range'_concat, List.foldl_append]
      simp
    rw [hstep, ih]
    rcases Nat.eq_zero_or_pos k with h0 | hpos
    · subst h0
      have := save_ckpt_expected_zero dir e0
      simpa using this
    · exact save_ckpt_expected_step dir e0 k hpos

/-- C3: after `k` best saves at consecutive epochs from an empty directory,
the best-tagged files on disk are exactly those of the last `min k 5` epochs:
every save made with at least five best files present deleted the file whose
name parses (all digits of the path concatenated) to the smallest key, which
for a common directory is the oldest epoch; in particular after more than the
cap of five saves exactly five best files remain. -/
theorem c3_best_rotation (dir : FName) (e0 k : ℕ) :
    (bestRun dir e0 k).filter (matchesBestGlob dir) =
      (List.range' (e0 + (k - 5)) (min k 5)).map (bestName dir) ∧
    ((bestRun dir e0 k).filter (matchesBestGlob dir)).length = min k 5 ∧
    (∀ e' : ℕ, bestName dir e' ∈ (bestRun dir e0 k).filter (matchesBestGlob dir) ↔
      (e0 + (k - 5) ≤ e' ∧ e' < e0 + k)) := by
  have hb := bestRun_eq_expected dir e0 k
  have hfilter : (bestRun dir e0 k).filter (matchesBestGlob dir) =
      (List.range' (e0 + (k - 5)) (min k 5)).map (bestName dir) := by
    rw [hb]
    rcases Nat.eq_zero_or_pos k with h0 | hpos
    · subst h0
      simp [expectedFS]
    · unfold expectedFS
      rw [if_neg (by omega)]
      rw [List.filter_append, filter_glob_map_bestName]
      rw [List.filter_cons,
        if_neg (by rw [matchesBestGlob_periodicName]; exact Bool.false_ne_true)]
      rw [List.filter_cons, if_pos (matchesBestGlob_bestName dir _), List.filter_nil]
      have hsplit : List.range' (e0 + (k - 5)) (min k 5) =
          List.range' (e0 + (k - 5)) (min (k - 1) 4) ++ [e0 + k - 1] := by
        rw [show min k 5 = min (k - 1) 4 + 1 by omega, List.range'_concat]
        congr 1
        congr 1
        omega
      rw [hsplit, List.map_append]
      rfl
  refine ⟨hfilter, ?_, ?_⟩
  · rw [hfilter, List.length_map, List.length_range']
  · intro e'
    rw [hfilter, mem_map_bestName, List.mem_range']
    constructor
    · rintro ⟨i, hi, rfl⟩
      omega
    · intro h
      exact ⟨e' - (e0 + (k - 5)), by omega, by omega⟩

/-- C6: each periodic save at epoch `e` writes `epoch_{e}.pth.tar` and
removes `epoch_{e − save_every}.pth.tar`; consequently `k` periodic saves one
epoch apart starting from an empty run directory leave exactly the most
recent periodic checkpoint: `epoch_{i}` is on disk iff `i = e0 + k − 1`. -/
theorem c6_periodic_ring (dir : FName) (s e : ℕ) (ib : Bool) (fs : List FName)
    (hnd : fs.Nodup) (hs : 0 < s) (e0 k : ℕ) (ibs : ℕ → Bool) (i : ℤ) :
    periodicName dir (e : ℤ) ∈ save_ckpt dir s e ib fs ∧
    periodicName dir ((e : ℤ) - (s : ℤ)) ∉ save_ckpt dir s e ib fs ∧
    (periodicName dir i ∈ periodicRun dir e0 k ibs ↔
      (1 ≤ k ∧ i = (e0 : ℤ) + k - 1)) := by
  refine ⟨?_, ?_, (periodicRun_spec dir e0 ibs k).2 i⟩
  · rw [save_ckpt_periodic_mem dir s e ib hnd]
    refine ⟨?_, Or.inl rfl⟩
    omega
  · intro hmem
    have h := (save_ckpt_periodic_mem dir s e ib hnd _).mp hmem
    exact h.1 rfl

/-- C6 exercised concretely: saving at epoch 3 with interval 1 writes
`epoch_3` and removes `epoch_2`, and three consecutive saves from empty keep
exactly `epoch_2`. -/
theorem c6_witness :
    periodicName ['d'] ((3 : ℕ) : ℤ) ∈
      save_ckpt ['d'] 1 3 false [periodicName ['d'] 2] ∧
    periodicName ['d'] (((3 : ℕ) : ℤ) - ((1 : ℕ) : ℤ)) ∉
      save_ckpt ['d'] 1 3 false [periodicName ['d'] 2] ∧
    (periodicName ['d'] 2 ∈ periodicRun ['d'] 0 3 (fun _ => false) ↔
      (1 ≤ 3 ∧ (2 : ℤ) = ((0 : ℕ) : ℤ) + (3 : ℕ) - 1)) :=
  c6_periodic_ring ['d'] 1 3 false [periodicName ['d'] 2] (by decide) (by decide)
    0 3 (fun _ => false) 2

end AmazonML
